import Mathlib

/-!
Verification development for the linked-project resolution and package-set
merge engine of `osclib/remote_project.py`.

The remote build-service store is modelled as a finite association list from
project names to fetch outcomes (`Env.store`), together with a package-listing
function and the collaborator-owned `releaseName` normalization, both treated
as opaque total functions exactly as the code treats the corresponding
collaborator primitives.  Metadata documents are modelled as already-parsed
element trees (`Elem`); serialization between strings and trees is the
identity of this model, so `ET.fromstring` and `ET.tostring` disappear.
Python exceptions become the explicit error type `PyError`.
-/

/-- An element of a metadata document: tag, attributes (in document order),
element text and child elements.  Mirrors the lxml element interface used by
the code. -/
structure Elem where
  tag : String
  attrib : List (String × String)
  text : String
  children : List Elem

/-- Outcome of one raw metadata fetch from the remote store: a document, an
HTTP error with a status code, or another transport failure (e.g. URLError),
which the code does not catch. -/
inductive FetchResult where
  | ok (doc : Elem)
  | httpError (code : Nat)
  | netError

/-- The Python exceptions that can escape the modelled code paths.
`projectNotFound` carries the project name from the message. -/
inductive PyError where
  | projectNotFound (name : String)
  | httpError (code : Nat)
  | netError
  | keyError
  | attributeError
  deriving DecidableEq

deriving instance DecidableEq for Except

/-- A package name tagged with its owning project, as built by
`RemotePackage(pkg_name, project=self.name)`.  `releasename()` is owned by
the collaborator layer and modelled by `Env.releaseName` applied to the
package name. -/
structure RemotePackage where
  name : String
  project : String
  deriving DecidableEq

/-- Parsed project metadata: the ordered list of directly linked project
names (`self.linked_projects_names`). -/
structure ProjectMetadata where
  linked_projects_names : List String
  deriving DecidableEq

/-- A project resolver: a name plus optionally attached metadata
(`self.metadata`, `None` on bare construction). -/
structure RemoteProject where
  name : String
  metadata : Option ProjectMetadata
  deriving DecidableEq

/-- The remote store and collaborator functions.  `store` is the finite
association list of projects the server knows about; a name absent from it
behaves as an HTTP 404.  `listing` models `osc.core.meta_get_packagelist`
and `releaseName` models `RemotePackage.releasename()`. -/
structure Env where
  store : List (String × FetchResult)
  listing : String → List String
  releaseName : String → String

/-- Raw fetch of a project's metadata document: look the name up in the
store; an absent name is a missing resource (HTTP 404). -/
def Env.fetch (env : Env) (project_name : String) : FetchResult :=
  match List.lookup project_name env.store with
  | some r => r
  | none => .httpError 404

/-- The names the store has entries for. -/
def Env.storeNames (env : Env) : List String :=
  env.store.map Prod.fst

/-- `ProjectMetadata.load`: fetch the raw document; an `HTTPError` with code
404 becomes `ProjectNotFound`, any other `HTTPError` is re-raised unchanged,
and a non-HTTP transport error is not caught at all. -/
def ProjectMetadata.load (env : Env) (project_name : String) : Except PyError Elem :=
  match env.fetch project_name with
  | .ok d => .ok d
  | .httpError code => if code == 404 then .error (.projectNotFound project_name)
      else .error (.httpError code)
  | .netError => .error .netError

/-- The link-collection loop inside `ProjectMetadata.parse`: for every child
tagged `link`, record its `project` attribute (a missing attribute is a
`KeyError`, as for Python's `child.attrib['project']`). -/
def collectLinks : List Elem → Except PyError (List String)
  | [] => .ok []
  | c :: cs =>
    if c.tag == "link" then
      match List.lookup "project" c.attrib with
      | some v =>
        match collectLinks cs with
        | .ok rest => .ok (v :: rest)
        | .error e => .error e
      | none => .error .keyError
    else collectLinks cs

/-- `ProjectMetadata.parse`: extract the `project` attribute of every
direct child tagged `link`, in document order; other children are ignored. -/
def ProjectMetadata.parse (doc : Elem) : Except PyError ProjectMetadata :=
  match collectLinks doc.children with
  | .ok links => .ok ⟨links⟩
  | .error e => .error e

/-- `RemoteProject.find`: load and parse the metadata, then return a
resolver with the metadata attached.  Propagates `ProjectNotFound`. -/
def RemoteProject.find (env : Env) (project_name : String) : Except PyError RemoteProject :=
  match ProjectMetadata.load env project_name with
  | .error e => .error e
  | .ok doc =>
    match ProjectMetadata.parse doc with
    | .error e => .error e
    | .ok md => .ok { name := project_name, metadata := some md }

/-- Number of store names not yet present among the resolved projects; the
primary component of the termination measure of the worklist loop. -/
def unresolvedCount (env : Env) (result : List RemoteProject) : Nat :=
  (env.storeNames.filter (fun n => result.all (fun r => r.name != n))).length

theorem lookup_mem_fst {α : Type} {k : String} {v : α} :
    ∀ {l : List (String × α)}, List.lookup k l = some v → k ∈ l.map Prod.fst := by
  intro l
  induction l with
  | nil => intro h; simp [List.lookup] at h
  | cons kv rest ih =>
    obtain ⟨k1, v1⟩ := kv
    intro h
    cases hk : (k == k1) with
    | true =>
      simp only [List.map_cons, List.mem_cons]
      exact Or.inl (beq_iff_eq.mp hk)
    | false =>
      simp only [List.lookup, hk] at h
      simp only [List.map_cons, List.mem_cons]
      exact Or.inr (ih h)

theorem filter_length_mono {α : Type} {p q : α → Bool}
    (hpq : ∀ a, q a = true → p a = true) :
    ∀ l : List α, (l.filter q).length ≤ (l.filter p).length := by
  intro l
  induction l with
  | nil => simp
  | cons b t ih =>
    by_cases hq : q b = true
    · rw [List.filter_cons_of_pos hq, List.filter_cons_of_pos (hpq b hq)]
      simpa using ih
    · rw [List.filter_cons_of_neg (by simpa using hq)]
      by_cases hp : p b = true
      · rw [List.filter_cons_of_pos hp]
        exact Nat.le_succ_of_le ih
      · rw [List.filter_cons_of_neg (by simpa using hp)]
        exact ih

theorem filter_length_strict {α : Type} {p q : α → Bool}
    (hpq : ∀ a, q a = true → p a = true) :
    ∀ (l : List α) (a : α), a ∈ l → p a = true → q a = false →
      (l.filter q).length < (l.filter p).length := by
  intro l
  induction l with
  | nil => intro a ha; simp at ha
  | cons b t ih =>
    intro a ha hpa hqa
    rcases List.mem_cons.mp ha with hab | hat
    · subst hab
      rw [List.filter_cons_of_neg (by simp [hqa]), List.filter_cons_of_pos hpa]
      exact Nat.lt_succ_of_le (filter_length_mono hpq t)
    · by_cases hqb : q b = true
      · rw [List.filter_cons_of_pos hqb, List.filter_cons_of_pos (hpq b hqb)]
        simpa using ih a hat hpa hqa
      · rw [List.filter_cons_of_neg (by simpa using hqb)]
        calc (t.filter q).length < (t.filter p).length := ih a hat hpa hqa
          _ ≤ ((b :: t).filter p).length := by
              by_cases hpb : p b = true
              · rw [List.filter_cons_of_pos hpb]; exact Nat.le_succ _
              · rw [List.filter_cons_of_neg (by simpa using hpb)]

theorem find_ok_name {env : Env} {nm : String} {p : RemoteProject}
    (h : RemoteProject.find env nm = .ok p) : p.name = nm := by
  unfold RemoteProject.find at h
  split at h
  · exact absurd h (by simp)
  · split at h
    · exact absurd h (by simp)
    · cases h; rfl

theorem find_ok_fetch {env : Env} {nm : String} {p : RemoteProject}
    (h : RemoteProject.find env nm = .ok p) : ∃ d, env.fetch nm = .ok d := by
  unfold RemoteProject.find at h
  split at h
  · exact absurd h (by simp)
  · rename_i doc hload
    unfold ProjectMetadata.load at hload
    cases hf : env.fetch nm with
    | ok d => exact ⟨d, rfl⟩
    | httpError code =>
      rw [hf] at hload
      by_cases hc : code == 404 <;> simp [hc] at hload
    | netError => rw [hf] at hload; exact absurd hload (by simp)

theorem fetch_ok_mem {env : Env} {nm : String} {d : Elem}
    (h : env.fetch nm = .ok d) : nm ∈ env.storeNames := by
  unfold Env.fetch at h
  cases hl : List.lookup nm env.store with
  | none => rw [hl] at h; exact absurd h (by simp)
  | some r => exact lookup_mem_fst hl

theorem unresolved_decreases {env : Env} {nm : String} {p : RemoteProject}
    {result : List RemoteProject}
    (hfind : RemoteProject.find env nm = .ok p)
    (hnew : result.all (fun r => r.name != nm) = true) :
    unresolvedCount env (result ++ [p]) < unresolvedCount env result := by
  obtain ⟨d, hd⟩ := find_ok_fetch hfind
  have hname := find_ok_name hfind
  apply filter_length_strict
    (p := fun n => result.all (fun r => r.name != n))
    (q := fun n => (result ++ [p]).all (fun r => r.name != n))
  · intro a ha
    simp only [List.all_append, Bool.and_eq_true] at ha
    exact ha.1
  · exact fetch_ok_mem hd
  · exact hnew
  · rw [List.all_append]
    simp only [Bool.and_eq_false_iff]
    right
    simp [hname]

/-- The worklist loop of `ProjectMetadata.linked_projects`: pop the front of
the worklist, skip a name that is already resolved, otherwise resolve it via
`RemoteProject.find` (propagating any failure), append it to the result and,
when `recursive`, enqueue its own linked names at the back.  Termination:
lexicographically, either a name from the finite store domain becomes
resolved, or the worklist shrinks. -/
def lpLoop (env : Env) (recursive : Bool) (to_process : List String)
    (result : List RemoteProject) : Except PyError (List RemoteProject) :=
  match to_process with
  | [] => .ok result
  | nm :: rest =>
    if hnew : result.all (fun r => r.name != nm) then
      match hfind : RemoteProject.find env nm with
      | .error e => .error e
      | .ok project =>
        if recursive then
          match project.metadata with
          | some md =>
            lpLoop env recursive (rest ++ md.linked_projects_names) (result ++ [project])
          | none => .error .attributeError
        else
          lpLoop env recursive rest (result ++ [project])
    else
      lpLoop env recursive rest result
termination_by (unresolvedCount env result, to_process.length)
decreasing_by
  · exact Prod.Lex.left _ _ (unresolved_decreases hfind hnew)
  · exact Prod.Lex.left _ _ (unresolved_decreases hfind hnew)
  · exact Prod.Lex.right _ (Nat.lt_succ_self _)

/-- `ProjectMetadata.linked_projects`: run the worklist loop seeded with the
directly linked names and an empty result. -/
def ProjectMetadata.linked_projects (md : ProjectMetadata) (env : Env)
    (recursive : Bool) : Except PyError (List RemoteProject) :=
  lpLoop env recursive md.linked_projects_names []

/-- Fuel-indexed twin of `lpLoop`, structurally recursive so that concrete
runs reduce by `rfl`/`decide`; `none` means the fuel ran out. -/
def lpLoopFuel (env : Env) (recursive : Bool) :
    Nat → List String → List RemoteProject → Option (Except PyError (List RemoteProject))
  | 0, _, _ => none
  | _ + 1, [], result => some (.ok result)
  | fuel + 1, nm :: rest, result =>
    if result.all (fun r => r.name != nm) then
      match RemoteProject.find env nm with
      | .error e => some (.error e)
      | .ok project =>
        if recursive then
          match project.metadata with
          | some md =>
            lpLoopFuel env recursive fuel (rest ++ md.linked_projects_names) (result ++ [project])
          | none => some (.error .attributeError)
        else
          lpLoopFuel env recursive fuel rest (result ++ [project])
    else
      lpLoopFuel env recursive fuel rest result

/-- A fuelled run that produces an answer agrees with the worklist loop. -/
theorem lpLoopFuel_sound (env : Env) (recursive : Bool) :
    ∀ (fuel : Nat) (to_process : List String) (result : List RemoteProject)
      (e : Except PyError (List RemoteProject)),
      lpLoopFuel env recursive fuel to_process result = some e →
      lpLoop env recursive to_process result = e := by
  intro fuel
  induction fuel with
  | zero => intro tp res e h; simp [lpLoopFuel] at h
  | succ n ih =>
    intro tp res e h
    rw [lpLoop.eq_def]
    cases tp with
    | nil =>
      simp only [lpLoopFuel] at h
      cases h
      rfl
    | cons nm rest =>
      simp only [lpLoopFuel] at h
      by_cases hnew : res.all (fun r => r.name != nm)
      · rw [if_pos hnew] at h
        simp only [hnew, reduceDIte]
        cases hfind : RemoteProject.find env nm with
        | error err =>
          simp only [hfind] at h
          cases h
          rfl
        | ok project =>
          simp only [hfind] at h
          cases hrec : recursive with
          | true =>
            subst hrec
            simp only [reduceIte] at h ⊢
            cases hmd : project.metadata with
            | some md =>
              simp only [hmd] at h ⊢
              exact ih _ _ _ h
            | none =>
              simp only [hmd] at h ⊢
              cases h
              rfl
          | false =>
            subst hrec
            simp only [reduceIte] at h ⊢
            exact ih _ _ _ h
      · rw [if_neg hnew] at h
        simp only [hnew, reduceDIte]
        exact ih _ _ _ h

/-- One package per name in the remote store's listing, in listing order,
tagged with the listed project as owner: the
`[RemotePackage(pkg_name, project=self.name) for pkg_name in pkg_list]`
comprehension. -/
def ownPackages (env : Env) (project_name : String) : List RemotePackage :=
  (env.listing project_name).map (fun n => { name := n, project := project_name })

/-- The regex `^patchinfo\.[0-9]+$` applied with `re.match`: the literal
prefix `patchinfo.` followed by one or more ASCII digits and nothing else.
(The model ignores the possibility of a trailing newline, which Python's
`$` would tolerate; package names contain no newlines.) -/
def patchinfoName (s : String) : Bool :=
  List.isPrefixOf "patchinfo.".data s.data &&
    (let rest := s.data.drop "patchinfo.".data.length
     !rest.isEmpty && rest.all (fun c => c.isDigit))

/-- The regex `^kernel-livepatch-` applied with `re.match`: the literal
prefix `kernel-livepatch-`, trailing hyphen included. -/
def klpName (s : String) : Bool :=
  List.isPrefixOf "kernel-livepatch-".data s.data

/-- Python dict assignment `m[k] = v`: overwrite in place when the key is
present, append otherwise. -/
def dinsert (m : List (String × RemotePackage)) (k : String) (v : RemotePackage) :
    List (String × RemotePackage) :=
  if m.any (fun kv => kv.1 == k) then
    m.map (fun kv => if kv.1 == k then (k, v) else kv)
  else m ++ [(k, v)]

/-- The seed of the merge map: `{ pkg.name: pkg for pkg in res }`. -/
def seedDict (res : List RemotePackage) : List (String × RemotePackage) :=
  res.foldl (fun m pkg => dinsert m pkg.name pkg) []

/-- The body of the candidate loop of `_merge_inherited`: skip when the raw
name is already a key, when the name is a patchinfo or kernel-livepatch
pseudo-package, or when the release name is already a key; otherwise insert
under the release name. -/
def mergeStep (env : Env) (m : List (String × RemotePackage)) (pkg : RemotePackage) :
    List (String × RemotePackage) :=
  if m.any (fun kv => kv.1 == pkg.name) then m
  else if patchinfoName pkg.name then m
  else if klpName pkg.name then m
  else if m.any (fun kv => kv.1 == env.releaseName pkg.name) then m
  else dinsert m (env.releaseName pkg.name) pkg

/-- The merge map after processing every linked project's own
(non-inherited) package list in closure order.  `project.get_packages(inherited=False)`
is exactly `ownPackages env project.name` (see `RemoteProject.get_packages`). -/
def merge_dict (env : Env) (res : List RemotePackage) (linked : List RemoteProject) :
    List (String × RemotePackage) :=
  linked.foldl
    (fun m project => (ownPackages env project.name).foldl (mergeStep env) m)
    (seedDict res)

/-- `RemoteProject._merge_inherited`: the values of the merge map, in
insertion order (Python dict `values()`). -/
def merge_inherited (env : Env) (res : List RemotePackage) (linked : List RemoteProject) :
    List RemotePackage :=
  (merge_dict env res linked).map Prod.snd

/-- `RemoteProject.get_packages`: list the project's own packages; when
`inherited`, merge in the packages of the recursive linked-project closure
(dereferencing `self.metadata`, which is an `AttributeError` on a bare
resolver whose metadata is unset). -/
def RemoteProject.get_packages (p : RemoteProject) (env : Env) (inherited : Bool) :
    Except PyError (List RemotePackage) :=
  let res := ownPackages env p.name
  if inherited then
    match p.metadata with
    | none => .error .attributeError
    | some md =>
      match md.linked_projects env true with
      | .error e => .error e
      | .ok linked => .ok (merge_inherited env res linked)
  else .ok res

/-- Keyed overwrite-or-append on an association list: replace the value in
place when the key is present, append the pair otherwise. -/
def assocSet {α : Type} (m : List (String × α)) (k : String) (v : α) :
    List (String × α) :=
  if m.any (fun kv => kv.1 == k) then
    m.map (fun kv => if kv.1 == k then (k, v) else kv)
  else m ++ [(k, v)]

/-- lxml `root.set(key, value)`: replace the attribute in place when
present, append it otherwise. -/
def setAttr (attrs : List (String × String)) (k v : String) : List (String × String) :=
  assocSet attrs k v

/-- Python truthiness of an optional string argument: `None` and the empty
string are falsy. -/
def truthyStr : Option String → Bool
  | none => false
  | some s => !(s == "")

/-- The child-rewriting loop of `create_subproject`: overwrite the text of a
`title` child when a truthy title was passed, else of a `description` child
when a truthy description was passed; leave every other child untouched. -/
def rewriteChild (title description : Option String) (child : Elem) : Elem :=
  if child.tag == "title" && truthyStr title then
    { child with text := title.getD child.text }
  else if child.tag == "description" && truthyStr description then
    { child with text := description.getD child.text }
  else child

/-- `ProjectMetadata.save`: persist a document as a project's metadata
(HTTP PUT into the store). -/
def ProjectMetadata.save (env : Env) (project_name : String) (doc : Elem) : Env :=
  { env with store := assocSet env.store project_name (.ok doc) }

/-- `RemoteProject.create_subproject`: load the parent's raw document,
rewrite the root `name` attribute to `parent:child`, overwrite the `title`
and `description` child texts where truthy arguments were passed, save the
modified document under the fully-qualified name, and return a resolver for
it whose metadata is parsed from the saved document.  Returns the updated
store alongside the Python result, the save having happened before the
final parse. -/
def RemoteProject.create_subproject (p : RemoteProject) (env : Env) (name : String)
    (title description : Option String) : Env × Except PyError RemoteProject :=
  match ProjectMetadata.load env p.name with
  | .error e => (env, .error e)
  | .ok raw =>
    let fullname := p.name ++ ":" ++ name
    let root : Elem := { raw with attrib := setAttr raw.attrib "name" fullname }
    let modified : Elem := { root with children := root.children.map (rewriteChild title description) }
    let env2 := ProjectMetadata.save env fullname modified
    match ProjectMetadata.parse modified with
    | .error e => (env2, .error e)
    | .ok md => (env2, .ok { name := fullname, metadata := some md })

/-- Either a candidate is skipped, or all four guards failed and it is
appended under its release name. -/
theorem mergeStep_eq_or (env : Env) (m : List (String × RemotePackage)) (pkg : RemotePackage) :
    mergeStep env m pkg = m ∨
    (m.any (fun kv => kv.1 == pkg.name) = false ∧
     patchinfoName pkg.name = false ∧ klpName pkg.name = false ∧
     m.any (fun kv => kv.1 == env.releaseName pkg.name) = false ∧
     mergeStep env m pkg = m ++ [(env.releaseName pkg.name, pkg)]) := by
  unfold mergeStep
  by_cases h1 : m.any (fun kv => kv.1 == pkg.name)
  · left; rw [if_pos h1]
  · rw [if_neg h1]
    by_cases h2 : patchinfoName pkg.name
    · left; rw [if_pos h2]
    · rw [if_neg h2]
      by_cases h3 : klpName pkg.name
      · left; rw [if_pos h3]
      · rw [if_neg h3]
        by_cases h4 : m.any (fun kv => kv.1 == env.releaseName pkg.name)
        · left; rw [if_pos h4]
        · rw [if_neg h4]
          right
          refine ⟨Bool.of_not_eq_true h1, Bool.of_not_eq_true h2,
            Bool.of_not_eq_true h3, Bool.of_not_eq_true h4, ?_⟩
          unfold dinsert
          rw [if_neg h4]

/-- The inner candidate fold of the merge. -/
def foldPkgs (env : Env) (m : List (String × RemotePackage)) (pkgs : List RemotePackage) :
    List (String × RemotePackage) :=
  pkgs.foldl (mergeStep env) m

theorem mergeStep_preserves {env : Env} {m : List (String × RemotePackage)}
    {pkg : RemotePackage} {kv : String × RemotePackage} (h : kv ∈ m) :
    kv ∈ mergeStep env m pkg := by
  rcases mergeStep_eq_or env m pkg with heq | ⟨_, _, _, _, heq⟩ <;>
    rw [heq] <;> simp [h]

theorem foldPkgs_preserves {env : Env} {pkgs : List RemotePackage} :
    ∀ {m : List (String × RemotePackage)} {kv : String × RemotePackage},
      kv ∈ m → kv ∈ foldPkgs env m pkgs := by
  induction pkgs with
  | nil => intro m kv h; exact h
  | cons b t ih =>
    intro m kv h
    exact ih (mergeStep_preserves h)

theorem keys_mergeStep_sub {env : Env} {m : List (String × RemotePackage)}
    {pkg : RemotePackage} {k : String} (h : k ∈ m.map Prod.fst) :
    k ∈ (mergeStep env m pkg).map Prod.fst := by
  obtain ⟨kv, hkv, rfl⟩ := List.mem_map.mp h
  exact List.mem_map.mpr ⟨kv, mergeStep_preserves hkv, rfl⟩

/-- Every entry of the candidate fold is either an entry of the initial map
or was inserted under the candidate's release name, with all four guards
having failed against a map at least as large as the initial one. -/
theorem foldPkgs_mem_char {env : Env} {pkgs : List RemotePackage} :
    ∀ {m : List (String × RemotePackage)} {kv : String × RemotePackage},
      kv ∈ foldPkgs env m pkgs →
      kv ∈ m ∨
      (kv.1 = env.releaseName kv.2.name ∧
       patchinfoName kv.2.name = false ∧ klpName kv.2.name = false ∧
       kv.2.name ∉ m.map Prod.fst ∧
       env.releaseName kv.2.name ∉ m.map Prod.fst ∧
       kv.2 ∈ pkgs) := by
  induction pkgs with
  | nil => intro m kv h; exact Or.inl h
  | cons b t ih =>
    intro m kv h
    rcases ih h with hstep | ⟨hk, hp, hl, hn, hr, hmem⟩
    · rcases mergeStep_eq_or env m b with heq | ⟨c1, c2, c3, c4, heq⟩
      · rw [heq] at hstep
        exact Or.inl hstep
      · rw [heq] at hstep
        rcases List.mem_append.mp hstep with hold | hnew
        · exact Or.inl hold
        · rcases List.mem_singleton.mp hnew with rfl
          refine Or.inr ⟨rfl, c2, c3, ?_, ?_, List.mem_cons_self _ _⟩
          · intro hc
            obtain ⟨kv2, hkv2, hk2⟩ := List.mem_map.mp hc
            have : (List.any m fun kv => kv.1 == b.name) = true :=
              List.any_eq_true.mpr ⟨kv2, hkv2, beq_iff_eq.mpr hk2⟩
            rw [c1] at this
            exact Bool.false_ne_true this
          · intro hc
            obtain ⟨kv2, hkv2, hk2⟩ := List.mem_map.mp hc
            have : (List.any m fun kv => kv.1 == env.releaseName b.name) = true :=
              List.any_eq_true.mpr ⟨kv2, hkv2, beq_iff_eq.mpr hk2⟩
            rw [c4] at this
            exact Bool.false_ne_true this
    · refine Or.inr ⟨hk, hp, hl, ?_, ?_, List.mem_cons_of_mem _ hmem⟩
      · intro hc; exact hn (keys_mergeStep_sub hc)
      · intro hc; exact hr (keys_mergeStep_sub hc)

theorem mergeStep_keys_nodup {env : Env} {m : List (String × RemotePackage)}
    {pkg : RemotePackage} (h : (m.map Prod.fst).Nodup) :
    ((mergeStep env m pkg).map Prod.fst).Nodup := by
  rcases mergeStep_eq_or env m pkg with heq | ⟨_, _, _, c4, heq⟩
  · rw [heq]; exact h
  · rw [heq, List.map_append]
    rw [List.nodup_append]
    refine ⟨h, List.nodup_singleton _, ?_⟩
    intro a ha hb
    simp only [List.map_cons, List.map_nil, List.mem_singleton] at hb
    subst hb
    obtain ⟨kv2, hkv2, hk2⟩ := List.mem_map.mp ha
    have : (List.any m fun kv => kv.1 == env.releaseName pkg.name) = true :=
      List.any_eq_true.mpr ⟨kv2, hkv2, beq_iff_eq.mpr hk2⟩
    rw [c4] at this
    exact Bool.false_ne_true this

theorem foldPkgs_keys_nodup {env : Env} {pkgs : List RemotePackage} :
    ∀ {m : List (String × RemotePackage)}, (m.map Prod.fst).Nodup →
      ((foldPkgs env m pkgs).map Prod.fst).Nodup := by
  induction pkgs with
  | nil => intro m h; exact h
  | cons b t ih =>
    intro m h
    exact ih (mergeStep_keys_nodup h)

theorem merge_dict_eq_fold (env : Env) (res : List RemotePackage)
    (linked : List RemoteProject) :
    merge_dict env res linked =
      linked.foldl (fun m project => foldPkgs env m (ownPackages env project.name))
        (seedDict res) := rfl

theorem outer_preserves {env : Env} {linked : List RemoteProject} :
    ∀ {m : List (String × RemotePackage)} {kv : String × RemotePackage},
      kv ∈ m →
      kv ∈ linked.foldl (fun m project => foldPkgs env m (ownPackages env project.name)) m := by
  induction linked with
  | nil => intro m kv h; exact h
  | cons b t ih =>
    intro m kv h
    exact ih (foldPkgs_preserves h)

theorem keys_outer_sub {env : Env} {linked : List RemoteProject}
    {m : List (String × RemotePackage)} {k : String} (h : k ∈ m.map Prod.fst) :
    k ∈ (linked.foldl (fun m project => foldPkgs env m (ownPackages env project.name)) m).map
      Prod.fst := by
  obtain ⟨kv, hkv, rfl⟩ := List.mem_map.mp h
  exact List.mem_map.mpr ⟨kv, outer_preserves hkv, rfl⟩

/-- Every entry of the full merge fold is either an entry of the initial map
or an inherited candidate from one of the linked projects, keyed by its
release name, with none of the exclusion patterns matching and with neither
its raw name nor its release name among the initial keys. -/
theorem outer_mem_char {env : Env} {linked : List RemoteProject} :
    ∀ {m : List (String × RemotePackage)} {kv : String × RemotePackage},
      kv ∈ linked.foldl (fun m project => foldPkgs env m (ownPackages env project.name)) m →
      kv ∈ m ∨
      (kv.1 = env.releaseName kv.2.name ∧
       patchinfoName kv.2.name = false ∧ klpName kv.2.name = false ∧
       kv.2.name ∉ m.map Prod.fst ∧
       env.releaseName kv.2.name ∉ m.map Prod.fst ∧
       ∃ project ∈ linked, kv.2 ∈ ownPackages env project.name) := by
  induction linked with
  | nil => intro m kv h; exact Or.inl h
  | cons b t ih =>
    intro m kv h
    rcases ih h with hstep | ⟨hk, hp, hl, hn, hr, project, hproj, hmem⟩
    · rcases foldPkgs_mem_char hstep with hold | ⟨hk, hp, hl, hn, hr, hmem⟩
      · exact Or.inl hold
      · exact Or.inr ⟨hk, hp, hl, hn, hr, b, List.mem_cons_self _ _, hmem⟩
    · refine Or.inr ⟨hk, hp, hl, ?_, ?_, project, List.mem_cons_of_mem _ hproj, hmem⟩
      · intro hc
        obtain ⟨kv2, hkv2, heq⟩ := List.mem_map.mp hc
        exact hn (List.mem_map.mpr ⟨kv2, foldPkgs_preserves hkv2, heq⟩)
      · intro hc
        obtain ⟨kv2, hkv2, heq⟩ := List.mem_map.mp hc
        exact hr (List.mem_map.mpr ⟨kv2, foldPkgs_preserves hkv2, heq⟩)

theorem outer_keys_nodup {env : Env} {linked : List RemoteProject} :
    ∀ {m : List (String × RemotePackage)}, (m.map Prod.fst).Nodup →
      ((linked.foldl (fun m project => foldPkgs env m (ownPackages env project.name)) m).map
        Prod.fst).Nodup := by
  induction linked with
  | nil => intro m h; exact h
  | cons b t ih =>
    intro m h
    exact ih (foldPkgs_keys_nodup h)

/-- With duplicate-free package names, the seed of the merge map is the own
package list keyed by raw name, in order. -/
theorem seedDict_eq {res : List RemotePackage} :
    ∀ init : List (String × RemotePackage),
      (∀ p ∈ res, ∀ kv ∈ init, kv.1 ≠ p.name) →
      (res.map RemotePackage.name).Nodup →
      res.foldl (fun m pkg => dinsert m pkg.name pkg) init =
        init ++ res.map (fun p => (p.name, p)) := by
  induction res with
  | nil => intro init _ _; simp
  | cons p rest ih =>
    intro init hdisj hnodup
    have hkey : (init.any (fun kv => kv.1 == p.name)) = false := by
      rw [List.any_eq_false]
      intro kv hkv hc
      exact hdisj p (List.mem_cons_self _ _) kv hkv (beq_iff_eq.mp hc)
    have h1 : dinsert init p.name p = init ++ [(p.name, p)] := by
      unfold dinsert
      rw [if_neg (by rw [hkey]; exact Bool.false_ne_true)]
    simp only [List.foldl_cons, h1]
    rw [List.map_cons, List.nodup_cons] at hnodup
    rw [ih (init ++ [(p.name, p)]) ?_ hnodup.2]
    · simp
    · intro q hq kv hkv
      rcases List.mem_append.mp hkv with hin | hone
      · exact hdisj q (List.mem_cons_of_mem _ hq) kv hin
      · rcases List.mem_singleton.mp hone with rfl
        simp only
        intro hc
        exact hnodup.1 (hc ▸ List.mem_map.mpr ⟨q, hq, rfl⟩)

theorem seedDict_char {res : List RemotePackage}
    (hnodup : (res.map RemotePackage.name).Nodup) :
    seedDict res = res.map (fun p => (p.name, p)) := by
  unfold seedDict
  rw [seedDict_eq [] (by intro p _ kv hkv; simp at hkv) hnodup]
  simp

/-- In a map with duplicate-free keys, a key determines its entry. -/
theorem nodup_keys_unique {m : List (String × RemotePackage)}
    (h : (m.map Prod.fst).Nodup) {k : String} {a b : RemotePackage}
    (ha : (k, a) ∈ m) (hb : (k, b) ∈ m) : a = b := by
  induction m with
  | nil => simp at ha
  | cons kv t ih =>
    rw [List.map_cons, List.nodup_cons] at h
    rcases List.mem_cons.mp ha with rfl | hat
    · rcases List.mem_cons.mp hb with heq | hbt
      · injection heq with h1 h2
        exact h2.symm
      · exact absurd (List.mem_map.mpr ⟨(k, b), hbt, rfl⟩) h.1
    · rcases List.mem_cons.mp hb with rfl | hbt
      · exact absurd (List.mem_map.mpr ⟨(k, a), hat, rfl⟩) h.1
      · exact ih h.2 hat hbt

/-- Destructor for a successful inherited `get_packages` call: the metadata
was present, the recursive closure succeeded, and the result is the merge of
the own package list with the closure. -/
theorem get_packages_true_ok {p : RemoteProject} {env : Env}
    {out : List RemotePackage} (h : p.get_packages env true = .ok out) :
    ∃ md linked, p.metadata = some md ∧
      md.linked_projects env true = .ok linked ∧
      out = merge_inherited env (ownPackages env p.name) linked := by
  unfold RemoteProject.get_packages at h
  simp only [reduceIte] at h
  cases hmd : p.metadata with
  | none => rw [hmd] at h; exact absurd h (by simp)
  | some md =>
    rw [hmd] at h
    simp only at h
    cases hlp : md.linked_projects env true with
    | error e => rw [hlp] at h; exact absurd h (by simp)
    | ok linked =>
      rw [hlp] at h
      simp only at h
      cases h
      exact ⟨md, linked, rfl, hlp, rfl⟩

theorem all_names_ne {result : List RemoteProject} {nm : String}
    (h : (result.all fun r => r.name != nm) = true) : ∀ r ∈ result, r.name ≠ nm := by
  intro r hr
  exact bne_iff_ne.mp (List.all_eq_true.mp h r hr)

theorem exists_name_eq {result : List RemoteProject} {nm : String}
    (h : (result.all fun r => r.name != nm) = false) : ∃ r ∈ result, r.name = nm := by
  rw [List.all_eq_false] at h
  obtain ⟨r, hr, hne⟩ := h
  refine ⟨r, hr, ?_⟩
  simpa using hne

theorem find_ok_metadata {env : Env} {nm : String} {p : RemoteProject}
    (h : RemoteProject.find env nm = .ok p) : ∃ md, p.metadata = some md := by
  unfold RemoteProject.find at h
  split at h
  · exact absurd h (by simp)
  · split at h
    · exact absurd h (by simp)
    · cases h; exact ⟨_, rfl⟩

/-- Combined invariant of a successful worklist run: the accumulated result
is preserved, every worklist name is covered by the output, every output
project is either initial or the value of a successful `find` on its own
name, duplicate-freeness of names is preserved, and (in recursive mode)
the output is closed under the links of every project it resolved. -/
theorem lpLoop_ok_inv (env : Env) (recursive : Bool) :
    ∀ (tp : List String) (result : List RemoteProject),
      ∀ res, lpLoop env recursive tp result = .ok res →
      (∀ r ∈ result, r ∈ res) ∧
      (∀ n ∈ tp, ∃ r ∈ res, r.name = n) ∧
      (∀ r ∈ res, r ∈ result ∨ RemoteProject.find env r.name = .ok r) ∧
      ((result.map RemoteProject.name).Nodup → (res.map RemoteProject.name).Nodup) ∧
      (∀ r ∈ res, r ∉ result →
        ∀ md2, r.metadata = some md2 → recursive = true →
          ∀ n ∈ md2.linked_projects_names, ∃ r2 ∈ res, r2.name = n) := by
  intro tp result
  induction tp, result using lpLoop.induct env recursive with
  | case1 result =>
    intro res h
    rw [lpLoop.eq_def] at h
    simp only at h
    cases h
    refine ⟨fun r hr => hr, by simp, fun r hr => Or.inl hr, fun hn => hn, ?_⟩
    intro r hr hnr
    exact absurd hr hnr
  | case2 result nm rest hnew e hfind =>
    intro res h
    rw [lpLoop.eq_def] at h
    simp only [hnew, reduceDIte] at h
    split at h
    · simp at h
    · rename_i project2 heq
      rw [hfind] at heq
      simp at heq
  | case3 result nm rest hnew project hfind hrec md hmd ih =>
    subst hrec
    intro res h
    rw [lpLoop.eq_def] at h
    simp only [hnew, reduceDIte] at h
    split at h
    · rename_i e2 heq
      rw [hfind] at heq
      simp at heq
    · rename_i project2 heq
      rw [hfind] at heq
      injection heq with heq2
      subst heq2
      simp only [reduceIte, hmd] at h
      obtain ⟨I1, I2, I3, I4, I5⟩ := ih res h
      have hpname := find_ok_name hfind
      have hproj_res : project ∈ res :=
        I1 project (List.mem_append.mpr (Or.inr (List.mem_singleton.mpr rfl)))
      refine ⟨?_, ?_, ?_, ?_, ?_⟩
      · intro r hr
        exact I1 r (List.mem_append.mpr (Or.inl hr))
      · intro n hn
        rcases List.mem_cons.mp hn with rfl | hnr
        · exact ⟨project, hproj_res, hpname⟩
        · exact I2 n (List.mem_append.mpr (Or.inl hnr))
      · intro r hr
        rcases I3 r hr with hmem | hfindok
        · rcases List.mem_append.mp hmem with h1 | h2
          · exact Or.inl h1
          · rcases List.mem_singleton.mp h2 with rfl
            exact Or.inr (by rw [hpname]; exact hfind)
        · exact Or.inr hfindok
      · intro hnodup
        apply I4
        rw [List.map_append, List.nodup_append]
        refine ⟨hnodup, by simp, ?_⟩
        intro a ha hb
        simp only [List.map_cons, List.map_nil, List.mem_singleton] at hb
        subst hb
        obtain ⟨r, hr, hra⟩ := List.mem_map.mp ha
        exact all_names_ne hnew r hr (hra.trans hpname)
      · intro r hr hnr md2 hmd2 hrec2 n hn
        by_cases hrp : r = project
        · subst hrp
          rw [hmd] at hmd2
          cases hmd2
          exact I2 n (List.mem_append.mpr (Or.inr hn))
        · refine I5 r hr ?_ md2 hmd2 hrec2 n hn
          intro hc
          rcases List.mem_append.mp hc with h1 | h2
          · exact hnr h1
          · exact hrp (List.mem_singleton.mp h2)
  | case4 result nm rest hnew project hfind hrec hmd =>
    subst hrec
    intro res h
    rw [lpLoop.eq_def] at h
    simp only [hnew, reduceDIte] at h
    split at h
    · rename_i e2 heq
      rw [hfind] at heq
      simp at heq
    · rename_i project2 heq
      rw [hfind] at heq
      injection heq with heq2
      subst heq2
      simp only [reduceIte, hmd] at h
      simp at h
  | case5 result nm rest hnew project hfind hrec ih =>
    rw [Bool.not_eq_true] at hrec
    subst hrec
    intro res h
    rw [lpLoop.eq_def] at h
    simp only [hnew, reduceDIte] at h
    split at h
    · rename_i e2 heq
      rw [hfind] at heq
      simp at heq
    · rename_i project2 heq
      rw [hfind] at heq
      injection heq with heq2
      subst heq2
      obtain ⟨I1, I2, I3, I4, I5⟩ := ih res h
      have hpname := find_ok_name hfind
      have hproj_res : project ∈ res :=
        I1 project (List.mem_append.mpr (Or.inr (List.mem_singleton.mpr rfl)))
      refine ⟨?_, ?_, ?_, ?_, ?_⟩
      · intro r hr
        exact I1 r (List.mem_append.mpr (Or.inl hr))
      · intro n hn
        rcases List.mem_cons.mp hn with rfl | hnr
        · exact ⟨project, hproj_res, hpname⟩
        · exact I2 n hnr
      · intro r hr
        rcases I3 r hr with hmem | hfindok
        · rcases List.mem_append.mp hmem with h1 | h2
          · exact Or.inl h1
          · rcases List.mem_singleton.mp h2 with rfl
            exact Or.inr (by rw [hpname]; exact hfind)
        · exact Or.inr hfindok
      · intro hnodup
        apply I4
        rw [List.map_append, List.nodup_append]
        refine ⟨hnodup, by simp, ?_⟩
        intro a ha hb
        simp only [List.map_cons, List.map_nil, List.mem_singleton] at hb
        subst hb
        obtain ⟨r, hr, hra⟩ := List.mem_map.mp ha
        exact all_names_ne hnew r hr (hra.trans hpname)
      · intro r hr hnr md2 hmd2 hrec2
        exact absurd hrec2 (by simp)
  | case6 result nm rest hnew ih =>
    intro res h
    rw [lpLoop.eq_def] at h
    rw [Bool.not_eq_true] at hnew
    simp only [hnew, reduceDIte] at h
    obtain ⟨I1, I2, I3, I4, I5⟩ := ih res h
    refine ⟨I1, ?_, I3, I4, I5⟩
    intro n hn
    rcases List.mem_cons.mp hn with rfl | hnr
    · obtain ⟨r, hr, hrn⟩ := exists_name_eq hnew
      exact ⟨r, I1 r hr, hrn⟩
    · exact I2 n hnr

/-- In a store whose only failures are missing resources (HTTP 404) and
whose documents all parse, `find` either succeeds or raises
`ProjectNotFound` for the requested name. -/
theorem find_clean_cases (env : Env)
    (hhttp : ∀ n c, env.fetch n = .httpError c → c = 404)
    (hnet : ∀ n, env.fetch n ≠ .netError)
    (hparse : ∀ n d, env.fetch n = .ok d → ∃ md, ProjectMetadata.parse d = .ok md)
    (nm : String) :
    (∃ p, RemoteProject.find env nm = .ok p) ∨
      RemoteProject.find env nm = .error (.projectNotFound nm) := by
  cases hf : env.fetch nm with
  | ok d =>
    have hload : ProjectMetadata.load env nm = .ok d := by
      simp only [ProjectMetadata.load, hf]
    obtain ⟨md, hmd⟩ := hparse nm d hf
    left
    refine ⟨⟨nm, some md⟩, ?_⟩
    simp only [RemoteProject.find, hload, hmd]
  | httpError code =>
    have h404 := hhttp nm code hf
    subst h404
    have hload : ProjectMetadata.load env nm = .error (.projectNotFound nm) := by
      simp only [ProjectMetadata.load, hf]
      simp
    right
    simp only [RemoteProject.find, hload]
  | netError => exact absurd hf (hnet nm)

/-- Under a clean store, the only failure the worklist loop can surface is
`ProjectNotFound`. -/
theorem lpLoop_error_clean (env : Env) (recursive : Bool)
    (hhttp : ∀ n c, env.fetch n = .httpError c → c = 404)
    (hnet : ∀ n, env.fetch n ≠ .netError)
    (hparse : ∀ n d, env.fetch n = .ok d → ∃ md, ProjectMetadata.parse d = .ok md) :
    ∀ (tp : List String) (result : List RemoteProject),
      ∀ e, lpLoop env recursive tp result = .error e →
      ∃ nm2, e = .projectNotFound nm2 := by
  intro tp result
  induction tp, result using lpLoop.induct env recursive with
  | case1 result =>
    intro e h
    rw [lpLoop.eq_def] at h
    simp at h
  | case2 result nm rest hnew e2 hfind =>
    intro e h
    rcases find_clean_cases env hhttp hnet hparse nm with ⟨p, hp⟩ | hp
    · rw [hp] at hfind
      simp at hfind
    · rw [hfind] at hp
      injection hp with hp2
      rw [lpLoop.eq_def] at h
      simp only [hnew, reduceDIte] at h
      split at h
      · rename_i e3 heq
        rw [hfind] at heq
        injection heq with heq2
        injection h with h2
        exact ⟨nm, by rw [← h2, ← heq2, hp2]⟩
      · rename_i p heq
        rw [hfind] at heq
        simp at heq
  | case3 result nm rest hnew project hfind hrec md hmd ih =>
    subst hrec
    intro e h
    rw [lpLoop.eq_def] at h
    simp only [hnew, reduceDIte] at h
    split at h
    · rename_i e2 heq
      rw [hfind] at heq
      simp at heq
    · rename_i project2 heq
      rw [hfind] at heq
      injection heq with heq2
      subst heq2
      simp only [reduceIte, hmd] at h
      exact ih e h
  | case4 result nm rest hnew project hfind hrec hmd =>
    intro e h
    obtain ⟨md0, hmd0⟩ := find_ok_metadata hfind
    rw [hmd] at hmd0
    simp at hmd0
  | case5 result nm rest hnew project hfind hrec ih =>
    rw [Bool.not_eq_true] at hrec
    subst hrec
    intro e h
    rw [lpLoop.eq_def] at h
    simp only [hnew, reduceDIte] at h
    split at h
    · rename_i e2 heq
      rw [hfind] at heq
      simp at heq
    · rename_i project2 heq
      rw [hfind] at heq
      injection heq with heq2
      subst heq2
      exact ih e h
  | case6 result nm rest hnew ih =>
    intro e h
    rw [lpLoop.eq_def] at h
    rw [Bool.not_eq_true] at hnew
    simp only [hnew, reduceDIte] at h
    exact ih e h

/-- First-occurrence de-duplication of a name list, relative to a set of
names already seen. -/
def dedupFrom (seen : List String) : List String → List String
  | [] => []
  | n :: rest =>
    if seen.contains n then dedupFrom seen rest
    else n :: dedupFrom (seen ++ [n]) rest

/-- Resolve a list of names one after the other, stopping at the first
failure. -/
def resolveSeq (env : Env) : List String → Except PyError (List RemoteProject)
  | [] => .ok []
  | n :: rest =>
    match RemoteProject.find env n with
    | .error e => .error e
    | .ok p =>
      match resolveSeq env rest with
      | .error e => .error e
      | .ok ps => .ok (p :: ps)

theorem dedupFrom_cons (seen : List String) (m : String) (rest : List String) :
    dedupFrom seen (m :: rest) =
      if seen.contains m then dedupFrom seen rest
      else m :: dedupFrom (seen ++ [m]) rest := rfl

theorem dedupFrom_mem :
    ∀ (l seen : List String) (n : String),
      n ∈ dedupFrom seen l ↔ (n ∈ l ∧ n ∉ seen) := by
  intro l
  induction l with
  | nil => intro seen n; simp [dedupFrom]
  | cons m rest ih =>
    intro seen n
    by_cases hm : seen.contains m
    · rw [show dedupFrom seen (m :: rest) = dedupFrom seen rest from by
        rw [dedupFrom_cons, if_pos hm]]
      rw [ih seen n]
      have hmseen : m ∈ seen := by
        rw [List.contains_iff_exists_mem_beq] at hm
        obtain ⟨m2, hm2, hbeq⟩ := hm
        exact (beq_iff_eq.mp hbeq) ▸ hm2
      constructor
      · rintro ⟨h1, h2⟩
        exact ⟨List.mem_cons_of_mem _ h1, h2⟩
      · rintro ⟨h1, h2⟩
        rcases List.mem_cons.mp h1 with rfl | h3
        · exact absurd hmseen h2
        · exact ⟨h3, h2⟩
    · rw [show dedupFrom seen (m :: rest) = m :: dedupFrom (seen ++ [m]) rest from by
        rw [dedupFrom_cons, if_neg hm]]
      have hmseen : m ∉ seen := by
        intro hc
        exact hm (List.contains_iff_exists_mem_beq.mpr ⟨m, hc, beq_iff_eq.mpr rfl⟩)
      constructor
      · intro h1
        rcases List.mem_cons.mp h1 with rfl | h2
        · exact ⟨List.mem_cons_self _ _, hmseen⟩
        · rw [ih (seen ++ [m]) n] at h2
          refine ⟨List.mem_cons_of_mem _ h2.1, ?_⟩
          intro hc
          exact h2.2 (List.mem_append.mpr (Or.inl hc))
      · rintro ⟨h1, h2⟩
        rcases List.mem_cons.mp h1 with rfl | h3
        · exact List.mem_cons_self _ _
        · by_cases hnm : n = m
          · subst hnm
            exact List.mem_cons_self _ _
          · refine List.mem_cons_of_mem _ ?_
            rw [ih (seen ++ [m]) n]
            refine ⟨h3, ?_⟩
            intro hc
            rcases List.mem_append.mp hc with h4 | h5
            · exact h2 h4
            · exact hnm (List.mem_singleton.mp h5)

theorem dedupFrom_nodup : ∀ (l seen : List String), (dedupFrom seen l).Nodup := by
  intro l
  induction l with
  | nil => intro seen; simp [dedupFrom]
  | cons m rest ih =>
    intro seen
    by_cases hm : seen.contains m
    · rw [show dedupFrom seen (m :: rest) = dedupFrom seen rest from by
        rw [dedupFrom_cons, if_pos hm]]
      exact ih seen
    · rw [show dedupFrom seen (m :: rest) = m :: dedupFrom (seen ++ [m]) rest from by
        rw [dedupFrom_cons, if_neg hm]]
      rw [List.nodup_cons]
      refine ⟨?_, ih (seen ++ [m])⟩
      intro hc
      rw [dedupFrom_mem] at hc
      exact hc.2 (List.mem_append.mpr (Or.inr (List.mem_singleton.mpr rfl)))

theorem resolveSeq_ok {env : Env} :
    ∀ (l : List String) (ps : List RemoteProject),
      resolveSeq env l = .ok ps →
      ps.map RemoteProject.name = l ∧ ∀ p ∈ ps, RemoteProject.find env p.name = .ok p := by
  intro l
  induction l with
  | nil =>
    intro ps h
    simp only [resolveSeq] at h
    cases h
    simp
  | cons n rest ih =>
    intro ps h
    simp only [resolveSeq] at h
    cases hfind : RemoteProject.find env n with
    | error e => rw [hfind] at h; simp at h
    | ok p =>
      rw [hfind] at h
      cases hrs : resolveSeq env rest with
      | error e => rw [hrs] at h; simp at h
      | ok ps2 =>
        rw [hrs] at h
        simp only at h
        cases h
        obtain ⟨ih1, ih2⟩ := ih ps2 hrs
        have hpname := find_ok_name hfind
        refine ⟨by rw [List.map_cons, ih1, hpname], ?_⟩
        intro q hq
        rcases List.mem_cons.mp hq with rfl | hq2
        · rw [hpname]; exact hfind
        · exact ih2 q hq2

theorem lpLoopFuel_false_eq (env : Env) :
    ∀ (tp : List String) (result : List RemoteProject),
      lpLoopFuel env false (tp.length + 1) tp result =
        some (match resolveSeq env (dedupFrom (result.map RemoteProject.name) tp) with
          | .error e => .error e
          | .ok more => .ok (result ++ more)) := by
  intro tp
  induction tp with
  | nil =>
    intro result
    simp only [lpLoopFuel, dedupFrom, resolveSeq]
    simp
  | cons nm rest ih =>
    intro result
    simp only [List.length_cons, lpLoopFuel]
    by_cases hseen : (result.map RemoteProject.name).contains nm
    · have hall : (result.all fun r => r.name != nm) = false := by
        rw [List.contains_iff_exists_mem_beq] at hseen
        obtain ⟨m2, hm2, hbeq⟩ := hseen
        obtain ⟨r, hr, hrn⟩ := List.mem_map.mp hm2
        rw [List.all_eq_false]
        refine ⟨r, hr, ?_⟩
        have hrnm : r.name = nm := by rw [hrn]; exact (beq_iff_eq.mp hbeq).symm
        simp [hrnm]
      rw [dedupFrom_cons, if_pos hseen]
      rw [if_neg (by rw [hall]; exact Bool.false_ne_true)]
      exact ih result
    · have hall : (result.all fun r => r.name != nm) = true := by
        rw [List.all_eq_true]
        intro r hr
        rw [bne_iff_ne]
        intro hc
        exact hseen (List.contains_iff_exists_mem_beq.mpr
          ⟨nm, List.mem_map.mpr ⟨r, hr, hc⟩, beq_iff_eq.mpr rfl⟩)
      rw [dedupFrom_cons, if_neg hseen]
      rw [if_pos hall]
      cases hfind : RemoteProject.find env nm with
      | error e =>
        simp only [resolveSeq, hfind]
      | ok p =>
        have hpname := find_ok_name hfind
        simp only [reduceIte]
        rw [ih (result ++ [p])]
        simp only [resolveSeq, hfind]
        have hmaps : (result ++ [p]).map RemoteProject.name =
            result.map RemoteProject.name ++ [nm] := by
          rw [List.map_append, List.map_cons, List.map_nil, hpname]
        rw [hmaps]
        cases hres : resolveSeq env
            (dedupFrom (result.map RemoteProject.name ++ [nm]) rest) with
        | error e => simp
        | ok more => simp

/-- Closed form of the non-recursive worklist loop: resolve the seed names
in first-occurrence order after de-duplication, and never look further. -/
theorem lpLoop_false_eq (env : Env) (tp : List String) (result : List RemoteProject) :
    lpLoop env false tp result =
      match resolveSeq env (dedupFrom (result.map RemoteProject.name) tp) with
      | .error e => .error e
      | .ok more => .ok (result ++ more) :=
  lpLoopFuel_sound env false _ tp result _ (lpLoopFuel_false_eq env tp result)

theorem lookup_eq_none_of_all_ne {α : Type} {k : String} :
    ∀ {m : List (String × α)}, (∀ kv ∈ m, kv.1 ≠ k) → List.lookup k m = none := by
  intro m
  induction m with
  | nil => intro _; rfl
  | cons kv rest ih =>
    obtain ⟨k1, v1⟩ := kv
    intro h
    have hk1 : k1 ≠ k := h (k1, v1) (List.mem_cons_self _ _)
    have hbne : (k == k1) = false := by
      rw [beq_eq_false_iff_ne]
      exact fun hc => hk1 hc.symm
    simp only [List.lookup, hbne]
    exact ih (fun kv2 hkv2 => h kv2 (List.mem_cons_of_mem _ hkv2))

theorem lookup_append_single {α : Type} (k k2 : String) (w : α) :
    ∀ (m : List (String × α)),
      List.lookup k2 (m ++ [(k, w)]) =
        match List.lookup k2 m with
        | some u => some u
        | none => if k2 == k then some w else none := by
  intro m
  induction m with
  | nil =>
    cases h : (k2 == k) with
    | true => simp [List.lookup, h]
    | false => simp [List.lookup, h]
  | cons kv rest ih =>
    obtain ⟨k1, v1⟩ := kv
    cases hk : (k2 == k1) with
    | true => simp [List.lookup, hk]
    | false =>
      simp only [List.cons_append, List.lookup, hk]
      exact ih

theorem map_lookup_same {α : Type} {k : String} {v : α} :
    ∀ {m : List (String × α)}, m.any (fun kv => kv.1 == k) = true →
      List.lookup k (m.map (fun kv => if kv.1 == k then (k, v) else kv)) = some v := by
  intro m
  induction m with
  | nil => intro h; simp at h
  | cons kv rest ih =>
    obtain ⟨k1, v1⟩ := kv
    intro hany
    rw [List.map_cons]
    by_cases hk1 : ((k1, v1).1 == k)
    · rw [if_pos hk1]
      simp [List.lookup]
    · rw [if_neg hk1]
      simp only [List.any_cons] at hany
      rcases Bool.or_eq_true .. |>.mp hany with hc | hrest
      · exact absurd hc hk1
      · have hne : (k == k1) = false := by
          rw [beq_eq_false_iff_ne]
          intro hc
          exact hk1 (beq_iff_eq.mpr hc.symm)
        simp only [List.lookup, hne]
        exact ih hrest

theorem map_lookup_other {α : Type} {k k2 : String} {v : α} (hne : k2 ≠ k) :
    ∀ (m : List (String × α)),
      List.lookup k2 (m.map (fun kv => if kv.1 == k then (k, v) else kv)) =
        List.lookup k2 m := by
  have hbne : (k2 == k) = false := beq_eq_false_iff_ne.mpr hne
  intro m
  induction m with
  | nil => rfl
  | cons kv rest ih =>
    obtain ⟨k1, v1⟩ := kv
    rw [List.map_cons]
    by_cases hk1 : ((k1, v1).1 == k)
    · rw [if_pos hk1]
      have hk1eq : k1 = k := beq_iff_eq.mp hk1
      subst hk1eq
      simp only [List.lookup, hbne]
      exact ih
    · rw [if_neg hk1]
      cases hcond : (k2 == k1) with
      | true => simp [List.lookup, hcond]
      | false =>
        simp only [List.lookup, hcond]
        exact ih

theorem lookup_assocSet_same {α : Type} (k : String) (v : α)
    (m : List (String × α)) : List.lookup k (assocSet m k v) = some v := by
  unfold assocSet
  by_cases hany : m.any (fun kv => kv.1 == k)
  · rw [if_pos hany]
    exact map_lookup_same hany
  · rw [if_neg hany]
    rw [Bool.not_eq_true, List.any_eq_false] at hany
    have hnone : List.lookup k m = none := by
      apply lookup_eq_none_of_all_ne
      intro kv hkv hc
      exact absurd (beq_iff_eq.mpr hc) (by simpa using hany kv hkv)
    rw [lookup_append_single, hnone]
    simp

theorem lookup_assocSet_other {α : Type} (k : String) (v : α) (k2 : String)
    (hne : k2 ≠ k) (m : List (String × α)) :
    List.lookup k2 (assocSet m k v) = List.lookup k2 m := by
  unfold assocSet
  have hbne : (k2 == k) = false := beq_eq_false_iff_ne.mpr hne
  by_cases hany : m.any (fun kv => kv.1 == k)
  · rw [if_pos hany]
    exact map_lookup_other hne m
  · rw [if_neg hany]
    rw [lookup_append_single]
    cases hl : List.lookup k2 m with
    | some u => rfl
    | none => simp [hbne]

/-- Saving a document only changes the saved project's fetch result. -/
theorem save_fetch (env : Env) (nm : String) (doc : Elem) (q : String) :
    (ProjectMetadata.save env nm doc).fetch q =
      if q = nm then .ok doc else env.fetch q := by
  by_cases hq : q = nm
  · subst hq
    rw [if_pos rfl]
    simp only [Env.fetch, ProjectMetadata.save]
    rw [lookup_assocSet_same]
  · rw [if_neg hq]
    simp only [Env.fetch, ProjectMetadata.save]
    rw [lookup_assocSet_other _ _ _ hq]

theorem get_packages_true_eq {p : RemoteProject} {env : Env} {md : ProjectMetadata}
    (h : p.metadata = some md) :
    p.get_packages env true =
      match md.linked_projects env true with
      | .error e => .error e
      | .ok linked => .ok (merge_inherited env (ownPackages env p.name) linked) := by
  simp only [RemoteProject.get_packages, reduceIte, h]

theorem truthy_some {o : Option String} (h : truthyStr o = true) :
    ∃ s, o = some s ∧ s ≠ "" := by
  cases o with
  | none => simp [truthyStr] at h
  | some s =>
    refine ⟨s, rfl, ?_⟩
    simp only [truthyStr, Bool.not_eq_eq_eq_not, Bool.not_false] at h
    intro hc
    rw [hc] at h
    simp at h

theorem truthy_of_ne {s : String} (h : s ≠ "") : truthyStr (some s) = true := by
  simp only [truthyStr, Bool.not_eq_eq_eq_not, Bool.not_false]
  exact beq_eq_false_iff_ne.mpr h

/-- Everything `rewriteChild` does or leaves alone in one statement: only
the text of a `title` or `description` child can change, only to a provided
non-empty argument, and a `link` child (or any other child) is untouched. -/
theorem rewriteChild_facts (title description : Option String) (c : Elem) :
    (rewriteChild title description c).tag = c.tag ∧
    (rewriteChild title description c).attrib = c.attrib ∧
    (rewriteChild title description c).children = c.children ∧
    (c.tag = "link" → rewriteChild title description c = c) ∧
    (c.tag ≠ "title" → c.tag ≠ "description" → rewriteChild title description c = c) ∧
    ((rewriteChild title description c).text ≠ c.text →
      (c.tag = "title" ∧ ∃ s, title = some s ∧ s ≠ "" ∧
        (rewriteChild title description c).text = s) ∨
      (c.tag = "description" ∧ ∃ s, description = some s ∧ s ≠ "" ∧
        (rewriteChild title description c).text = s)) ∧
    (∀ s, title = some s → s ≠ "" → c.tag = "title" →
      (rewriteChild title description c).text = s) ∧
    (∀ s, description = some s → s ≠ "" → c.tag = "description" →
      (rewriteChild title description c).text = s) := by
  unfold rewriteChild
  by_cases h1 : (c.tag == "title" && truthyStr title) = true
  · rw [if_pos h1]
    rw [Bool.and_eq_true] at h1
    have htag : c.tag = "title" := beq_iff_eq.mp h1.1
    obtain ⟨s, hs, hsne⟩ := truthy_some h1.2
    subst hs
    refine ⟨rfl, rfl, rfl, ?_, ?_, ?_, ?_, ?_⟩
    · intro hc; rw [htag] at hc; exact absurd hc (by decide)
    · intro hc; exact absurd htag hc
    · intro _
      exact Or.inl ⟨htag, s, rfl, hsne, rfl⟩
    · intro s2 hs2 _ _
      injection hs2
    · intro s2 _ _ hdesc
      rw [htag] at hdesc
      exact absurd hdesc (by decide)
  · rw [if_neg h1]
    by_cases h2 : (c.tag == "description" && truthyStr description) = true
    · rw [if_pos h2]
      rw [Bool.and_eq_true] at h2
      have htag : c.tag = "description" := beq_iff_eq.mp h2.1
      obtain ⟨s, hs, hsne⟩ := truthy_some h2.2
      subst hs
      refine ⟨rfl, rfl, rfl, ?_, ?_, ?_, ?_, ?_⟩
      · intro hc; rw [htag] at hc; exact absurd hc (by decide)
      · intro _ hc; exact absurd htag hc
      · intro _
        exact Or.inr ⟨htag, s, rfl, hsne, rfl⟩
      · intro s2 hs2 hs2ne htitle
        exact absurd (by rw [htitle] at h1; exact h1 (by
          rw [Bool.and_eq_true]
          exact ⟨beq_iff_eq.mpr rfl, by rw [hs2]; exact truthy_of_ne hs2ne⟩)) (fun f => f)
      · intro s2 hs2 _ _
        injection hs2
    · rw [if_neg h2]
      refine ⟨rfl, rfl, rfl, fun _ => rfl, fun _ _ => rfl, ?_, ?_, ?_⟩
      · intro hc; exact absurd rfl hc
      · intro s2 hs2 hs2ne htitle
        subst hs2
        exact absurd (by
          rw [Bool.and_eq_true]
          exact ⟨beq_iff_eq.mpr htitle, truthy_of_ne hs2ne⟩) h1
      · intro s2 hs2 hs2ne hdesc
        subst hs2
        exact absurd (by
          rw [Bool.and_eq_true]
          exact ⟨beq_iff_eq.mpr hdesc, truthy_of_ne hs2ne⟩) h2

theorem get_map_at {α β : Type} (f : α → β) (l : List α) (i : Nat)
    (h2 : i < (l.map f).length) (h1 : i < l.length) :
    (l.map f).get ⟨i, h2⟩ = f (l.get ⟨i, h1⟩) := by
  simp

/-- The document `create_subproject` persists: the parent's raw document
with the root `name` attribute set to the fully qualified name and the
children rewritten by `rewriteChild`. -/
def subprojectDoc (raw : Elem) (fullname : String)
    (title description : Option String) : Elem :=
  { raw with attrib := setAttr raw.attrib "name" fullname,
             children := raw.children.map (rewriteChild title description) }

theorem create_subproject_eq (env : Env) (p : RemoteProject) (nm : String)
    (title description : Option String) (raw : Elem)
    (hload : env.fetch p.name = .ok raw) :
    p.create_subproject env nm title description =
      (ProjectMetadata.save env (p.name ++ ":" ++ nm)
        (subprojectDoc raw (p.name ++ ":" ++ nm) title description),
       match ProjectMetadata.parse
          (subprojectDoc raw (p.name ++ ":" ++ nm) title description) with
        | .error e => .error e
        | .ok md => .ok ⟨p.name ++ ":" ++ nm, some md⟩) := by
  have hload2 : ProjectMetadata.load env p.name = .ok raw := by
    simp only [ProjectMetadata.load, hload]
  simp only [RemoteProject.create_subproject, hload2, subprojectDoc]
  cases hp : ProjectMetadata.parse
      (subprojectDoc raw (p.name ++ ":" ++ nm) title description) with
  | error e =>
    simp only [subprojectDoc] at hp
    rw [hp]
  | ok md =>
    simp only [subprojectDoc] at hp
    rw [hp]

/-- C9: `CreateSubproject` persists, under the fully-qualified name
`parent:child`, the parent's metadata document with only the root `name`
attribute rewritten and, where a truthy argument was passed, the `title` or
`description` child text overwritten; every other attribute, every child's
tag, attributes and subtree — link declarations included — are unchanged,
no other store entry changes, and the returned resolver carries the name
`parent:child` with metadata parsed from the very document that was saved,
with no further fetch from the store. -/
theorem claim_C9 (env : Env) (p : RemoteProject) (nm : String)
    (title description : Option String) (raw : Elem)
    (hload : env.fetch p.name = .ok raw) :
    ∃ d : Elem,
      (p.create_subproject env nm title description).1.fetch (p.name ++ ":" ++ nm) =
        .ok d ∧
      (∀ q, q ≠ p.name ++ ":" ++ nm →
        (p.create_subproject env nm title description).1.fetch q = env.fetch q) ∧
      d.tag = raw.tag ∧ d.text = raw.text ∧
      List.lookup "name" d.attrib = some (p.name ++ ":" ++ nm) ∧
      (∀ k2, k2 ≠ "name" → List.lookup k2 d.attrib = List.lookup k2 raw.attrib) ∧
      d.children.length = raw.children.length ∧
      (∀ (i : Nat) (hi : i < raw.children.length) (hi2 : i < d.children.length),
        (d.children.get ⟨i, hi2⟩).tag = (raw.children.get ⟨i, hi⟩).tag ∧
        (d.children.get ⟨i, hi2⟩).attrib = (raw.children.get ⟨i, hi⟩).attrib ∧
        (d.children.get ⟨i, hi2⟩).children = (raw.children.get ⟨i, hi⟩).children ∧
        ((raw.children.get ⟨i, hi⟩).tag = "link" →
          d.children.get ⟨i, hi2⟩ = raw.children.get ⟨i, hi⟩) ∧
        ((raw.children.get ⟨i, hi⟩).tag ≠ "title" →
          (raw.children.get ⟨i, hi⟩).tag ≠ "description" →
          d.children.get ⟨i, hi2⟩ = raw.children.get ⟨i, hi⟩) ∧
        ((d.children.get ⟨i, hi2⟩).text ≠ (raw.children.get ⟨i, hi⟩).text →
          ((raw.children.get ⟨i, hi⟩).tag = "title" ∧
            ∃ s, title = some s ∧ s ≠ "" ∧ (d.children.get ⟨i, hi2⟩).text = s) ∨
          ((raw.children.get ⟨i, hi⟩).tag = "description" ∧
            ∃ s, description = some s ∧ s ≠ "" ∧
              (d.children.get ⟨i, hi2⟩).text = s))) ∧
      (∀ md, ProjectMetadata.parse d = .ok md →
        (p.create_subproject env nm title description).2 =
          .ok ⟨p.name ++ ":" ++ nm, some md⟩) := by
  have hcs := create_subproject_eq env p nm title description raw hload
  refine ⟨subprojectDoc raw (p.name ++ ":" ++ nm) title description,
    ?_, ?_, rfl, rfl, ?_, ?_, ?_, ?_, ?_⟩
  · rw [hcs]
    rw [save_fetch, if_pos rfl]
  · intro q hq
    rw [hcs]
    rw [save_fetch, if_neg hq]
  · exact lookup_assocSet_same _ _ _
  · intro k2 hk2
    exact lookup_assocSet_other _ _ _ hk2 _
  · exact List.length_map _ _
  · intro i hi hi2
    have hd : (subprojectDoc raw (p.name ++ ":" ++ nm) title description).children.get
        ⟨i, hi2⟩ = rewriteChild title description (raw.children.get ⟨i, hi⟩) :=
      get_map_at _ _ _ _ hi
    rw [hd]
    obtain ⟨f1, f2, f3, f4, f5, f6, _, _⟩ :=
      rewriteChild_facts title description (raw.children.get ⟨i, hi⟩)
    exact ⟨f1, f2, f3, f4, f5, f6⟩
  · intro md hmd
    rw [hcs]
    simp only [hmd]

/-- Metadata document of the scenario target `T`: one link to `R1`. -/
def docT : Elem := ⟨"project", [("name", "T")], "", [⟨"link", [("project", "R1")], "", []⟩]⟩

/-- Metadata document of `R1`: one link to `R2`. -/
def docR1 : Elem := ⟨"project", [("name", "R1")], "", [⟨"link", [("project", "R2")], "", []⟩]⟩

/-- Metadata document of `R2`: no links. -/
def docR2 : Elem := ⟨"project", [("name", "R2")], "", []⟩

/-- The store of the fixed scenario of C1: `T` links to `R1`, `R1` to `R2`;
`T` owns `wine`, `R1` owns `wine`, `patchinfo.42` and `foo`, `R2` owns
`foo.99`, whose release name is `foo`. -/
def envScenario : Env where
  store := [("T", .ok docT), ("R1", .ok docR1), ("R2", .ok docR2)]
  listing := fun n =>
    if n == "T" then ["wine"]
    else if n == "R1" then ["wine", "patchinfo.42", "foo"]
    else if n == "R2" then ["foo.99"]
    else []
  releaseName := fun n => if n == "foo.99" then "foo" else n

/-- C1: in the fixed scenario — `T` owns `{wine}` and links to `R1`, `R1`
owns `{wine, patchinfo.42, foo}` and links to `R2`, `R2` owns `{foo.99}`
with release name `foo` — `GetPackages(inherited=true)` on `T` returns
exactly two packages: `wine` owned by `T` and `foo` owned by `R1`; `R1`'s
`wine` loses to the own package, `patchinfo.42` is excluded by pattern, and
`R2`'s `foo.99` is excluded by the alias collision on `foo`. -/
theorem claim_C1 :
    RemoteProject.find envScenario "T" = .ok ⟨"T", some ⟨["R1"]⟩⟩ ∧
    RemoteProject.get_packages ⟨"T", some ⟨["R1"]⟩⟩ envScenario true =
      .ok [⟨"wine", "T"⟩, ⟨"foo", "R1"⟩] := by
  constructor
  · decide
  · have h : ProjectMetadata.linked_projects ⟨["R1"]⟩ envScenario true =
        .ok [⟨"R1", some ⟨["R2"]⟩⟩, ⟨"R2", some ⟨[]⟩⟩] :=
      lpLoopFuel_sound envScenario true 5 ["R1"] [] _ (by decide)
    rw [get_packages_true_eq rfl, h]
    decide

/-- C2: for every link graph — cycles of any length included — a successful
recursive closure resolves each distinct project name exactly once: the
resolution sequence (the result list, in resolution order) has no repeated
name, every resolved project is the value `find` returned for its name,
every seed name is covered, and the result is closed under the links of
every project it resolved, so a name already present is never re-resolved
or re-expanded.  Termination for every graph is inherent in the model: the
walk is a total function, proved terminating by the decreasing measure
`unresolvedCount`. -/
theorem claim_C2 (env : Env) (md : ProjectMetadata) (res : List RemoteProject)
    (h : md.linked_projects env true = .ok res) :
    (res.map RemoteProject.name).Nodup ∧
    (∀ r ∈ res, RemoteProject.find env r.name = .ok r) ∧
    (∀ n ∈ md.linked_projects_names, ∃ r ∈ res, r.name = n) ∧
    (∀ r ∈ res, ∀ md2, r.metadata = some md2 →
      ∀ n ∈ md2.linked_projects_names, ∃ r2 ∈ res, r2.name = n) := by
  obtain ⟨I1, I2, I3, I4, I5⟩ := lpLoop_ok_inv env true md.linked_projects_names [] res h
  refine ⟨I4 (by simp), ?_, I2, ?_⟩
  · intro r hr
    rcases I3 r hr with hmem | hok
    · simp at hmem
    · exact hok
  · intro r hr md2 hmd2 n hn
    exact I5 r hr (by simp) md2 hmd2 rfl n hn

/-- Store with a link cycle: `A` links to itself and to `B`, `B` links back
to `A`. -/
def envCycle : Env where
  store :=
    [("A", .ok ⟨"project", [("name", "A")], "",
        [⟨"link", [("project", "A")], "", []⟩, ⟨"link", [("project", "B")], "", []⟩]⟩),
     ("B", .ok ⟨"project", [("name", "B")], "",
        [⟨"link", [("project", "A")], "", []⟩]⟩)]
  listing := fun _ => []
  releaseName := fun n => n

theorem claim_C2_witness :
    ProjectMetadata.linked_projects ⟨["A"]⟩ envCycle true =
      .ok [⟨"A", some ⟨["A", "B"]⟩⟩, ⟨"B", some ⟨["A"]⟩⟩] ∧
    ([(⟨"A", some ⟨["A", "B"]⟩⟩ : RemoteProject), ⟨"B", some ⟨["A"]⟩⟩].map
      RemoteProject.name).Nodup := by
  have h : ProjectMetadata.linked_projects ⟨["A"]⟩ envCycle true =
      .ok [⟨"A", some ⟨["A", "B"]⟩⟩, ⟨"B", some ⟨["A"]⟩⟩] :=
    lpLoopFuel_sound envCycle true 8 ["A"] [] _ (by decide)
  exact ⟨h, (claim_C2 envCycle ⟨["A"]⟩ _ h).1⟩

/-- C10: the non-inherited `get_packages` never reads the resolver's
metadata: for every resolver, whatever its metadata field holds — `none` of
a bare construction included — the call succeeds and returns one package
per name of the store's listing, in listing order, each tagged with this
project as owner. -/
theorem claim_C10 (env : Env) (nm : String) (md : Option ProjectMetadata) :
    RemoteProject.get_packages ⟨nm, md⟩ env false =
      .ok ((env.listing nm).map (fun pkg_name => ⟨pkg_name, nm⟩)) := by
  simp only [RemoteProject.get_packages, ownPackages]
  rfl

theorem merge_inherited_eq (env : Env) (res : List RemotePackage)
    (linked : List RemoteProject) :
    merge_inherited env res linked =
      (linked.foldl (fun m project => foldPkgs env m (ownPackages env project.name))
        (seedDict res)).map Prod.snd := rfl

theorem dinsert_mem_or {m : List (String × RemotePackage)} {k : String}
    {v : RemotePackage} {kv : String × RemotePackage} (h : kv ∈ dinsert m k v) :
    kv ∈ m ∨ kv.2 = v := by
  unfold dinsert at h
  by_cases hany : m.any (fun e => e.1 == k)
  · rw [if_pos hany] at h
    obtain ⟨kv0, hkv0, heq⟩ := List.mem_map.mp h
    by_cases hc : (kv0.1 == k)
    · rw [if_pos hc] at heq
      right
      rw [← heq]
    · rw [if_neg hc] at heq
      left
      rw [← heq]
      exact hkv0
  · rw [if_neg hany] at h
    rcases List.mem_append.mp h with h1 | h2
    · exact Or.inl h1
    · right
      rcases List.mem_singleton.mp h2 with rfl
      rfl

/-- Every value of the seed map is one of the own packages, with or
without duplicate names. -/
theorem seedDict_values {res : List RemotePackage} :
    ∀ kv ∈ seedDict res, kv.2 ∈ res := by
  suffices h : ∀ (l : List RemotePackage) (init : List (String × RemotePackage)),
      (∀ kv ∈ init, kv.2 ∈ res) → (∀ p ∈ l, p ∈ res) →
      ∀ kv ∈ l.foldl (fun m pkg => dinsert m pkg.name pkg) init, kv.2 ∈ res by
    intro kv hkv
    exact h res [] (by simp) (fun p hp => hp) kv hkv
  intro l
  induction l with
  | nil => intro init h1 _ kv hkv; exact h1 kv hkv
  | cons p rest ih =>
    intro init h1 h2 kv hkv
    simp only [List.foldl_cons] at hkv
    refine ih (dinsert init p.name p) ?_ (fun q hq => h2 q (List.mem_cons_of_mem _ hq)) kv hkv
    intro kv2 hkv2
    rcases dinsert_mem_or hkv2 with hin | hv
    · exact h1 kv2 hin
    · rw [hv]
      exact h2 p (List.mem_cons_self _ _)

theorem seedDict_keys {res : List RemotePackage}
    (hnodup : (res.map RemotePackage.name).Nodup) :
    (seedDict res).map Prod.fst = res.map RemotePackage.name := by
  rw [seedDict_char hnodup, List.map_map]
  rfl

/-- Store with a project owning two maintenance-named aliases of the same
package. -/
def envOwnAlias : Env where
  store := [("T", .ok ⟨"project", [("name", "T")], "", []⟩)]
  listing := fun n => if n == "T" then ["foo.1", "foo.2"] else []
  releaseName := fun n => if n == "foo.1" then "foo" else if n == "foo.2" then "foo" else n

/-- C3 counterexample: a merged result holding two distinct packages whose
release names coincide — both own packages enter the map under their raw
names, and the code never compares the release names of own packages. -/
theorem claim_C3_counterexample :
    RemoteProject.get_packages ⟨"T", some ⟨[]⟩⟩ envOwnAlias true =
      .ok [⟨"foo.1", "T"⟩, ⟨"foo.2", "T"⟩] ∧
    (⟨"foo.1", "T"⟩ : RemotePackage) ≠ ⟨"foo.2", "T"⟩ ∧
    envOwnAlias.releaseName (⟨"foo.1", "T"⟩ : RemotePackage).name =
      envOwnAlias.releaseName (⟨"foo.2", "T"⟩ : RemotePackage).name := by
  refine ⟨?_, by decide, by decide⟩
  have h : ProjectMetadata.linked_projects ⟨[]⟩ envOwnAlias true = .ok [] :=
    lpLoopFuel_sound envOwnAlias true 1 [] [] _ (by decide)
  rw [get_packages_true_eq rfl, h]
  decide

/-- C3 (amended): with duplicate-free own package names, every key of the
merge map is unique, and no two distinct inherited packages in the merged
result share a release name; but an own package is keyed by its raw name,
so two own packages, or an own and an inherited package, may still alias
one another. -/
theorem claim_C3 (env : Env) (res : List RemotePackage) (linked : List RemoteProject)
    (hnodup : (res.map RemotePackage.name).Nodup) :
    ((merge_dict env res linked).map Prod.fst).Nodup ∧
    (∀ p q : RemotePackage, p ∈ merge_inherited env res linked →
      q ∈ merge_inherited env res linked → p ∉ res → q ∉ res → p ≠ q →
      env.releaseName p.name ≠ env.releaseName q.name) := by
  have hkeys : ((merge_dict env res linked).map Prod.fst).Nodup := by
    rw [merge_dict_eq_fold]
    apply outer_keys_nodup
    rw [seedDict_keys hnodup]
    exact hnodup
  refine ⟨hkeys, ?_⟩
  intro p q hp hq hpres hqres hpq hrn
  rw [merge_inherited_eq] at hp hq
  obtain ⟨kvp, hkvp, hkvp2⟩ := List.mem_map.mp hp
  obtain ⟨kvq, hkvq, hkvq2⟩ := List.mem_map.mp hq
  have hkp : kvp.1 = env.releaseName p.name := by
    rcases outer_mem_char hkvp with hseed | ⟨hk, _, _, _, _, _⟩
    · exact absurd (hkvp2 ▸ seedDict_values kvp hseed) hpres
    · rw [hk, hkvp2]
  have hkq : kvq.1 = env.releaseName q.name := by
    rcases outer_mem_char hkvq with hseed | ⟨hk, _, _, _, _, _⟩
    · exact absurd (hkvq2 ▸ seedDict_values kvq hseed) hqres
    · rw [hk, hkvq2]
  have hkvp_pair : (env.releaseName p.name, p) ∈
      linked.foldl (fun m project => foldPkgs env m (ownPackages env project.name))
        (seedDict res) := by
    have : kvp = (env.releaseName p.name, p) := by
      rw [Prod.ext_iff]
      exact ⟨hkp, hkvp2⟩
    rw [← this]
    exact hkvp
  have hkvq_pair : (env.releaseName p.name, q) ∈
      linked.foldl (fun m project => foldPkgs env m (ownPackages env project.name))
        (seedDict res) := by
    have : kvq = (env.releaseName p.name, q) := by
      rw [Prod.ext_iff]
      exact ⟨by rw [hkq, hrn], hkvq2⟩
    rw [← this]
    exact hkvq
  rw [merge_dict_eq_fold] at hkeys
  exact hpq (nodup_keys_unique hkeys hkvp_pair hkvq_pair)

theorem claim_C3_witness :
    ((merge_dict envOwnAlias (ownPackages envOwnAlias "T") []).map Prod.fst).Nodup := by
  exact (claim_C3 envOwnAlias (ownPackages envOwnAlias "T") [] (by decide)).1

/-- Store where a linked project re-offers an own package's name and a
maintenance-named alias of it. -/
def envAlias : Env where
  store :=
    [("A", .ok ⟨"project", [("name", "A")], "", [⟨"link", [("project", "R")], "", []⟩]⟩),
     ("R", .ok ⟨"project", [("name", "R")], "", []⟩)]
  listing := fun n => if n == "A" then ["foo"] else if n == "R" then ["foo", "foo.9"] else []
  releaseName := fun n => if n == "foo.9" then "foo" else n

/-- C4: own-package precedence.  In every successful
`GetPackages(inherited=true)` call whose own package names are duplicate
free, every own package is in the merged result (own packages are inserted
first and never evicted), and an inherited candidate whose raw name or
release name equals the name of an own package is never in the result. -/
theorem claim_C4 (env : Env) (A : RemoteProject) (out : List RemotePackage)
    (hgp : A.get_packages env true = .ok out)
    (hnodup : ((ownPackages env A.name).map RemotePackage.name).Nodup) :
    (∀ p ∈ ownPackages env A.name, p ∈ out) ∧
    (∀ q : RemotePackage, q ∉ ownPackages env A.name →
      (q.name ∈ (ownPackages env A.name).map RemotePackage.name ∨
       env.releaseName q.name ∈ (ownPackages env A.name).map RemotePackage.name) →
      q ∉ out) := by
  obtain ⟨md, linked, hmd, hlp, hout⟩ := get_packages_true_ok hgp
  subst hout
  constructor
  · intro p hp
    rw [merge_inherited_eq]
    refine List.mem_map.mpr ⟨(p.name, p), ?_, rfl⟩
    apply outer_preserves
    rw [seedDict_char hnodup]
    exact List.mem_map.mpr ⟨p, hp, rfl⟩
  · intro q hqown hcoll hq
    rw [merge_inherited_eq] at hq
    obtain ⟨kv, hkv, hkv2⟩ := List.mem_map.mp hq
    rcases outer_mem_char hkv with hseed | ⟨_, _, _, hn, hr, _⟩
    · exact hqown (hkv2 ▸ seedDict_values kv hseed)
    · rw [seedDict_keys hnodup, hkv2] at hn hr
      rcases hcoll with h1 | h1
      · exact hn h1
      · exact hr h1

theorem claim_C4_witness :
    RemoteProject.get_packages ⟨"A", some ⟨["R"]⟩⟩ envAlias true =
      .ok [⟨"foo", "A"⟩] ∧
    (⟨"foo", "A"⟩ : RemotePackage) ∈ [(⟨"foo", "A"⟩ : RemotePackage)] ∧
    (⟨"foo.9", "R"⟩ : RemotePackage) ∉ [(⟨"foo", "A"⟩ : RemotePackage)] := by
  have hgp : RemoteProject.get_packages ⟨"A", some ⟨["R"]⟩⟩ envAlias true =
      .ok [⟨"foo", "A"⟩] := by
    have h : ProjectMetadata.linked_projects ⟨["R"]⟩ envAlias true =
        .ok [⟨"R", some ⟨[]⟩⟩] :=
      lpLoopFuel_sound envAlias true 4 ["R"] [] _ (by decide)
    rw [get_packages_true_eq rfl, h]
    decide
  refine ⟨hgp, ?_, ?_⟩
  · exact (claim_C4 envAlias ⟨"A", some ⟨["R"]⟩⟩ _ hgp (by decide)).1
      ⟨"foo", "A"⟩ (by decide)
  · exact (claim_C4 envAlias ⟨"A", some ⟨["R"]⟩⟩ _ hgp (by decide)).2
      ⟨"foo.9", "R"⟩ (by decide) (Or.inr (by decide))

/-- Store offering patchinfo and kernel-livepatch candidates through a
link. -/
def envPatterns : Env where
  store :=
    [("T", .ok ⟨"project", [("name", "T")], "", [⟨"link", [("project", "R")], "", []⟩]⟩),
     ("R", .ok ⟨"project", [("name", "R")], "", []⟩)]
  listing := fun n =>
    if n == "T" then ["base"]
    else if n == "R" then ["patchinfo.1002", "kernel-livepatch-5_3", "kernel-livepatch"]
    else []
  releaseName := fun n => n

/-- C5: exclusion patterns.  Every inherited (non-own) package of a merged
result matches neither the `patchinfo.<digits>` pattern nor the
`kernel-livepatch-` prefix pattern; `patchinfo.1002` and
`kernel-livepatch-5_3` match them, the bare name `kernel-livepatch` (no
trailing hyphen) matches neither, and in a concrete merge the bare
`kernel-livepatch` candidate is inherited while the two pattern-matching
candidates are dropped. -/
theorem claim_C5 :
    (∀ (env : Env) (res : List RemotePackage) (linked : List RemoteProject)
      (q : RemotePackage), q ∈ merge_inherited env res linked → q ∉ res →
      patchinfoName q.name = false ∧ klpName q.name = false) ∧
    patchinfoName "patchinfo.1002" = true ∧
    klpName "kernel-livepatch-5_3" = true ∧
    patchinfoName "kernel-livepatch" = false ∧
    klpName "kernel-livepatch" = false ∧
    merge_inherited envPatterns (ownPackages envPatterns "T") [⟨"R", some ⟨[]⟩⟩] =
      [⟨"base", "T"⟩, ⟨"kernel-livepatch", "R"⟩] := by
  refine ⟨?_, by decide, by decide, by decide, by decide, by decide⟩
  intro env res linked q hq hqres
  rw [merge_inherited_eq] at hq
  obtain ⟨kv, hkv, hkv2⟩ := List.mem_map.mp hq
  rcases outer_mem_char hkv with hseed | ⟨_, hpat, hklp, _, _, _⟩
  · exact absurd (hkv2 ▸ seedDict_values kv hseed) hqres
  · rw [hkv2] at hpat hklp
    exact ⟨hpat, hklp⟩

theorem claim_C5_witness :
    patchinfoName (⟨"kernel-livepatch", "R"⟩ : RemotePackage).name = false ∧
    klpName (⟨"kernel-livepatch", "R"⟩ : RemotePackage).name = false :=
  claim_C5.1 envPatterns (ownPackages envPatterns "T") [⟨"R", some ⟨[]⟩⟩]
    ⟨"kernel-livepatch", "R"⟩ (by decide) (by decide)

/-- C6: the non-recursive closure resolves exactly the directly-linked
names: it equals the sequential resolution of the seed de-duplicated to
first occurrences, so duplicates are resolved once, the result order is
first-occurrence order, every result element is its name's `find` result,
and no project beyond the seed set is ever resolved — even when the direct
targets declare links of their own. -/
theorem claim_C6 (env : Env) (md : ProjectMetadata) :
    md.linked_projects env false =
      resolveSeq env (dedupFrom [] md.linked_projects_names) ∧
    (∀ res, md.linked_projects env false = .ok res →
      res.map RemoteProject.name = dedupFrom [] md.linked_projects_names ∧
      (res.map RemoteProject.name).Nodup ∧
      (∀ r ∈ res, RemoteProject.find env r.name = .ok r) ∧
      (∀ n, n ∈ res.map RemoteProject.name ↔ n ∈ md.linked_projects_names)) := by
  have heq : md.linked_projects env false =
      resolveSeq env (dedupFrom [] md.linked_projects_names) := by
    have h := lpLoop_false_eq env md.linked_projects_names []
    simp only [List.map_nil] at h
    rw [show md.linked_projects env false =
      lpLoop env false md.linked_projects_names [] from rfl, h]
    cases hr : resolveSeq env (dedupFrom [] md.linked_projects_names) <;> simp
  refine ⟨heq, ?_⟩
  intro res hres
  rw [heq] at hres
  obtain ⟨hmap, hfindok⟩ := resolveSeq_ok _ _ hres
  refine ⟨hmap, ?_, hfindok, ?_⟩
  · rw [hmap]
    exact dedupFrom_nodup _ _
  · intro n
    rw [hmap, dedupFrom_mem]
    simp

theorem claim_C6_witness :
    ProjectMetadata.linked_projects ⟨["A", "A"]⟩ envCycle false =
      .ok [⟨"A", some ⟨["A", "B"]⟩⟩] ∧
    [(⟨"A", some ⟨["A", "B"]⟩⟩ : RemoteProject)].map RemoteProject.name =
      dedupFrom [] ["A", "A"] := by
  have hconc : ProjectMetadata.linked_projects ⟨["A", "A"]⟩ envCycle false =
      .ok [⟨"A", some ⟨["A", "B"]⟩⟩] := by
    rw [(claim_C6 envCycle ⟨["A", "A"]⟩).1]
    decide
  exact ⟨hconc, ((claim_C6 envCycle ⟨["A", "A"]⟩).2 _ hconc).1⟩

/-- C7: a dangling direct link is a hard failure.  In a store whose only
failure mode is a missing resource (every HTTP error is a 404, no other
transport failure, every stored document parses), if `T`'s metadata links
to a name whose fetch is a 404, then `GetPackages(inherited=true)` on `T`
fails with `ProjectNotFound` — the branch is never skipped silently and no
partial result is returned. -/
theorem claim_C7 (env : Env) (T : RemoteProject) (md : ProjectMetadata) (bad : String)
    (hhttp : ∀ n c, env.fetch n = .httpError c → c = 404)
    (hnet : ∀ n, env.fetch n ≠ .netError)
    (hparse : ∀ n d, env.fetch n = .ok d → ∃ md2, ProjectMetadata.parse d = .ok md2)
    (hmd : T.metadata = some md)
    (hbadlink : bad ∈ md.linked_projects_names)
    (hbad : env.fetch bad = .httpError 404) :
    ∃ nm, T.get_packages env true = .error (.projectNotFound nm) := by
  rw [get_packages_true_eq hmd]
  cases hlp : md.linked_projects env true with
  | error e =>
    obtain ⟨nm2, rfl⟩ := lpLoop_error_clean env true hhttp hnet hparse
      md.linked_projects_names [] e hlp
    exact ⟨nm2, rfl⟩
  | ok res =>
    exfalso
    obtain ⟨I1, I2, I3, I4, I5⟩ :=
      lpLoop_ok_inv env true md.linked_projects_names [] res hlp
    obtain ⟨r, hr, hrname⟩ := I2 bad hbadlink
    rcases I3 r hr with hmem | hok
    · simp at hmem
    · obtain ⟨d, hd⟩ := find_ok_fetch hok
      rw [hrname, hbad] at hd
      exact FetchResult.noConfusion hd

/-- Store whose only project `T` declares a link to the absent `ghost`. -/
def envGhost : Env where
  store := [("T", .ok ⟨"project", [("name", "T")], "",
    [⟨"link", [("project", "ghost")], "", []⟩]⟩)]
  listing := fun _ => []
  releaseName := fun n => n

theorem envGhost_fetch (n : String) :
    envGhost.fetch n =
      if n == "T" then .ok ⟨"project", [("name", "T")], "",
        [⟨"link", [("project", "ghost")], "", []⟩]⟩
      else .httpError 404 := by
  simp only [Env.fetch, envGhost, List.lookup]
  cases h : (n == "T") <;> simp

theorem claim_C7_witness :
    ∃ nm, RemoteProject.get_packages ⟨"T", some ⟨["ghost"]⟩⟩ envGhost true =
      .error (.projectNotFound nm) := by
  apply claim_C7 envGhost ⟨"T", some ⟨["ghost"]⟩⟩ ⟨["ghost"]⟩ "ghost"
  · intro n c h
    rw [envGhost_fetch] at h
    cases hn : (n == "T") with
    | true => simp [hn] at h
    | false =>
      simp only [hn, Bool.false_eq_true, reduceIte] at h
      injection h with h2
      exact h2.symm
  · intro n h
    rw [envGhost_fetch] at h
    cases hn : (n == "T") with
    | true => simp [hn] at h
    | false => simp [hn] at h
  · intro n d h
    rw [envGhost_fetch] at h
    cases hn : (n == "T") with
    | true =>
      simp only [hn, reduceIte] at h
      injection h with h2
      subst h2
      exact ⟨⟨["ghost"]⟩, by decide⟩
    | false => simp [hn] at h
  · rfl
  · decide
  · rw [envGhost_fetch]
    rfl

/-- C8: load maps exactly a missing-resource fetch (HTTP 404) to
`ProjectNotFound`; any other HTTP error and any non-HTTP transport failure
propagate unchanged, and a successful fetch's document is returned as is. -/
theorem claim_C8 (env : Env) (nm : String) :
    ((∃ s, ProjectMetadata.load env nm = .error (.projectNotFound s)) ↔
      env.fetch nm = .httpError 404) ∧
    (∀ c, env.fetch nm = .httpError c → c ≠ 404 →
      ProjectMetadata.load env nm = .error (.httpError c)) ∧
    (env.fetch nm = .netError → ProjectMetadata.load env nm = .error .netError) ∧
    (∀ d, env.fetch nm = .ok d → ProjectMetadata.load env nm = .ok d) := by
  cases hf : env.fetch nm with
  | ok d0 =>
    have hl : ProjectMetadata.load env nm = .ok d0 := by
      simp only [ProjectMetadata.load, hf]
    refine ⟨⟨?_, ?_⟩, ?_, ?_, ?_⟩
    · rintro ⟨s, hs⟩
      rw [hl] at hs
      exact absurd hs (by simp)
    · intro hc
      exact absurd hc (by simp)
    · intro c hc
      exact absurd hc (by simp)
    · intro hc
      exact absurd hc (by simp)
    · intro d hd
      injection hd with h2
      subst h2
      exact hl
  | httpError code =>
    by_cases hcode : code = 404
    · subst hcode
      have hl : ProjectMetadata.load env nm = .error (.projectNotFound nm) := by
        simp only [ProjectMetadata.load, hf]
        simp
      refine ⟨⟨fun _ => rfl, fun _ => ⟨nm, hl⟩⟩, ?_, ?_, ?_⟩
      · intro c hc hne
        injection hc with h2
        exact absurd h2.symm hne
      · intro hc
        exact absurd hc (by simp)
      · intro d hd
        exact absurd hd (by simp)
    · have hl : ProjectMetadata.load env nm = .error (.httpError code) := by
        simp only [ProjectMetadata.load, hf]
        rw [if_neg (by simpa using hcode)]
      refine ⟨⟨?_, ?_⟩, ?_, ?_, ?_⟩
      · rintro ⟨s, hs⟩
        rw [hl] at hs
        injection hs with h2
        exact PyError.noConfusion h2
      · intro hc
        injection hc with h2
        exact absurd h2 hcode
      · intro c hc _
        injection hc with h2
        rw [← h2]
        exact hl
      · intro hc
        exact absurd hc (by simp)
      · intro d hd
        exact absurd hd (by simp)
  | netError =>
    have hl : ProjectMetadata.load env nm = .error .netError := by
      simp only [ProjectMetadata.load, hf]
    refine ⟨⟨?_, ?_⟩, ?_, ?_, ?_⟩
    · rintro ⟨s, hs⟩
      rw [hl] at hs
      injection hs with h2
      exact PyError.noConfusion h2
    · intro hc
      exact absurd hc (by simp)
    · intro c hc
      exact absurd hc (by simp)
    · intro _
      exact hl
    · intro d hd
      exact absurd hd (by simp)

/-- A metadata document with no links, owned by project `good`. -/
def docGood : Elem := ⟨"project", [("name", "good")], "", []⟩

/-- Store exercising all four load outcomes: a loadable project, a
forbidden one (HTTP 403), one behind a non-HTTP failure, and a missing
name. -/
def envLoads : Env where
  store := [("good", .ok docGood), ("forbidden", .httpError 403), ("down", .netError)]
  listing := fun _ => []
  releaseName := fun n => n

theorem claim_C8_witness :
    (∃ s, ProjectMetadata.load envLoads "missing" = .error (.projectNotFound s)) ∧
    ProjectMetadata.load envLoads "forbidden" = .error (.httpError 403) ∧
    ProjectMetadata.load envLoads "down" = .error .netError ∧
    ProjectMetadata.load envLoads "good" = .ok docGood := by
  refine ⟨?_, ?_, ?_, ?_⟩
  · exact (claim_C8 envLoads "missing").1.mpr rfl
  · exact (claim_C8 envLoads "forbidden").2.1 403 rfl (by decide)
  · exact (claim_C8 envLoads "down").2.2.1 rfl
  · exact (claim_C8 envLoads "good").2.2.2 docGood rfl

/-- The parent document of the C9 witness: a title, a description and one
link. -/
def docParent : Elem := ⟨"project", [("name", "P")], "",
  [⟨"title", [], "Old title", []⟩, ⟨"description", [], "Old description", []⟩,
   ⟨"link", [("project", "Base")], "", []⟩]⟩

/-- Store holding only the parent project of the C9 witness. -/
def envParent : Env where
  store := [("P", .ok docParent)]
  listing := fun _ => []
  releaseName := fun n => n

theorem claim_C9_witness :
    (∃ d, (RemoteProject.create_subproject ⟨"P", none⟩ envParent "C"
        (some "New title") none).1.fetch ("P" ++ ":" ++ "C") = .ok d) ∧
    (RemoteProject.create_subproject ⟨"P", none⟩ envParent "C"
        (some "New title") none).1.fetch "Base" = envParent.fetch "Base" := by
  obtain ⟨d, h1, h2, _⟩ := claim_C9 envParent ⟨"P", none⟩ "C" (some "New title") none
    docParent rfl
  exact ⟨⟨d, h1⟩, h2 "Base" (by decide)⟩
